import Mathlib

/-!
Verification of the UTXO wallet / transaction / miner consensus core.

Shallow embedding of the JavaScript sources:
* `wallet.js` (class Wallet),
* `transaction.js` (class Transaction),
* `miner.js` (class Miner plus `text2Binary`, `countMatchingBits`,
  `isEligibileToMint`),
with the crypto oracle (hash, calcAddress, sign, verifySignature,
JSON.stringify) taken as an abstract black box, exactly as the spec treats it.
JavaScript numbers appearing as coin amounts, timestamps and targets are
modelled as `Int`; mutation is modelled by explicit state passing; methods that
can throw return `Except`.
-/

namespace BCL

/-- An output `{amount, address}` of a transaction. -/
structure Output where
  amount : Int
  address : String
deriving DecidableEq

/-- An input `{txID, outputIndex, pubKey, sig}`. -/
structure Input where
  txID : String
  outputIndex : Nat
  pubKey : String
  sig : String
deriving DecidableEq

/-- A wallet coin `{output, txID, outputIndex}` (wallet.js constructor). -/
structure Coin where
  output : Output
  txID : String
  outputIndex : Nat
deriving DecidableEq

/-- A public/private key pair (the `keypair` package). -/
structure Keypair where
  pub : String
  priv : String
deriving DecidableEq

/-- The external crypto oracle (`utils.js` and `JSON.stringify`), a black box:
`hash`, `calcAddress = hash of the public key`, `sign`, `verifySignature`, and
the canonical serialization used for transaction ids. -/
structure Crypto where
  hash : String → String
  calcAddress : String → String
  sign : String → Output → String
  verifySignature : String → Output → String → Bool
  stringifyTx : List Input → List Output → String

/-- A transaction: inputs, outputs, and the id frozen at construction. -/
structure Transaction where
  inputs : List Input
  outputs : List Output
  id : String
deriving DecidableEq

/-- Constructor `new Transaction({outputs, inputs})`: stores both lists and freezes
`id = hash("" + JSON.stringify({inputs, outputs}))`. -/
def mkTransaction (crypto : Crypto) (inputs : List Input) (outputs : List Output) :
    Transaction :=
  { inputs := inputs, outputs := outputs
    id := crypto.hash (crypto.stringifyTx inputs outputs) }

/-- Errors thrown by `Transaction.spendOutput`.  `TypeErrorUndefined` models the
JavaScript `TypeError` raised by destructuring `this.outputs[outputIndex]` when
the index is out of range. -/
inductive SpendErr where
  | WrongTxID
  | AddressMismatch
  | BadSignature
  | TypeErrorUndefined
deriving DecidableEq

/-- Method `Transaction.spendOutput(input)`: checks the transaction id, then the
address, then the signature, and returns the referenced output amount.  Purely
functional on the transaction (it never mutates `this`). -/
def spendOutput (crypto : Crypto) (t : Transaction) (inp : Input) :
    Except SpendErr Int :=
  if inp.txID ≠ t.id then .error .WrongTxID
  else
    match t.outputs[inp.outputIndex]? with
    | none => .error .TypeErrorUndefined
    | some output =>
      if crypto.calcAddress inp.pubKey ≠ output.address then
        .error .AddressMismatch
      else if ¬ crypto.verifySignature inp.pubKey output inp.sig then
        .error .BadSignature
      else .ok output.amount

/-- A UTXO view `txID → array of outputs`; a cleared (spent) slot is `none`,
matching the falsy check `!utxo[txIn.outputIndex]` in the source. -/
abbrev UTXOView := List (String × List (Option Output))

/-- Lookup `utxos[txID]` (property access, `undefined` = `none`). -/
def lookupTx (utxos : UTXOView) (txID : String) : Option (List (Option Output)) :=
  (utxos.find? (fun p => p.1 == txID)).map Prod.snd

/-- The output referenced by an input: `utxos[txIn.txID][txIn.outputIndex]`,
`none` if the transaction is missing, the index is out of range, or the slot
was cleared. -/
def refOutput (utxos : UTXOView) (txIn : Input) : Option Output :=
  (lookupTx utxos txIn.txID).bind fun outs => (outs[txIn.outputIndex]?).join

/-- Method `Transaction.isValid(utxos)`: folds over the inputs accumulating
`(inSum, valid)` exactly as the source loop does (a failed input clears
`valid` but the loop keeps running), then compares against the summed
outputs.  Total: it returns a `Bool` on every view, never throws. -/
def isValid (crypto : Crypto) (t : Transaction) (utxos : UTXOView) : Bool :=
  let r := t.inputs.foldl
    (fun (acc : Int × Bool) txIn =>
      match refOutput utxos txIn with
      | none => (acc.1, false)
      | some prevOut =>
        if crypto.calcAddress txIn.pubKey == prevOut.address
            && crypto.verifySignature txIn.pubKey prevOut txIn.sig then
          (acc.1 + prevOut.amount, acc.2)
        else (acc.1, false))
    (0, true)
  if !r.2 then false
  else
    let outSum := t.outputs.foldl (fun acc o => acc + o.amount) 0
    decide (outSum ≤ r.1)

/-- Method `Transaction.addFee(amount)`: `this.outputs[0].amount += amount`.  In the
embedding the updated transaction is returned; `none` models the `TypeError`
raised when `outputs` is empty.  The `id` field is untouched, as in the
source, where the id was frozen by the constructor. -/
def addFee (t : Transaction) (amount : Int) : Option Transaction :=
  match t.outputs with
  | [] => none
  | o :: rest => some { t with outputs := { o with amount := o.amount + amount } :: rest }

/-- Method `Transaction.totalOutput()`. -/
def totalOutput (t : Transaction) : Int :=
  t.outputs.foldl (fun acc o => acc + o.amount) 0

/-! ## Wallet (wallet.js) -/

/-- A wallet: the coin queue `this.coins` (front = most recently added, since
`addUTXO` uses `unshift`) and the `address → keypair` map `this.addresses`,
modelled as an association list with newest binding first. -/
structure Wallet where
  coins : List Coin
  addresses : List (String × Keypair)
deriving DecidableEq

/-- Lookup `this.addresses[a]` (property access). -/
def lookupAddr (addrs : List (String × Keypair)) (a : String) : Option Keypair :=
  (addrs.find? (fun p => p.1 == a)).map Prod.snd

/-- Errors thrown by wallet methods.  `TypeErrorUndefined` models the
JavaScript `TypeError` raised by reading `.public` of an `undefined` map
entry. -/
inductive WalletErr where
  | UnknownAddress
  | InsufficientFunds
  | TypeErrorUndefined
deriving DecidableEq

/-- Getter `balance`: `this.coins.reduce((acc, {output}) => acc + output.amount, 0)`. -/
def balance (w : Wallet) : Int :=
  w.coins.foldl (fun acc c => acc + c.output.amount) 0

/-- Method `Wallet.addUTXO(utxo, txID, outputIndex)`: throws if the wallet has no key
for `utxo.address`, otherwise `unshift`s the coin onto the front of the
queue. -/
def addUTXO (w : Wallet) (utxo : Output) (txID : String) (outputIndex : Nat) :
    Except WalletErr Wallet :=
  match lookupAddr w.addresses utxo.address with
  | none => .error .UnknownAddress
  | some _ => .ok { w with coins := ⟨utxo, txID, outputIndex⟩ :: w.coins }

/-- The loop of `Wallet.spendUTXOs`: scan `this.coins` from index 0 (the front
of the queue) while the remaining requested `amount` is positive; for each
consumed coin build `{txID, outputIndex, pubKey, sig}` with
`sig = sign(keypair.private, coin.output)`, and subtract the coin amount.
Returns the built inputs and the final (possibly negative) remaining amount. -/
def spendLoop (crypto : Crypto) (addrs : List (String × Keypair))
    (amount : Int) : List Coin → Except WalletErr (List Input × Int)
  | [] => .ok ([], amount)
  | c :: rest =>
    if 0 < amount then
      match lookupAddr addrs c.output.address with
      | none => .error .TypeErrorUndefined
      | some kp =>
        match spendLoop crypto addrs (amount - c.output.amount) rest with
        | .error e => .error e
        | .ok (ins, rem) =>
          .ok (⟨c.txID, c.outputIndex, kp.pub, crypto.sign kp.priv c.output⟩ :: ins, rem)
    else .ok ([], amount)

/-- Method `Wallet.spendUTXOs(amount)`: throws `InsufficientFunds` when
`amount > this.balance`; otherwise runs the consuming loop and returns
`{inputs: needed, changeAmt: -amount}`.  The source then removes each consumed
coin with `this.coins.splice(this.coins.indexOf(element), 1)`; since the
consumed elements are exactly the first `needed.length` objects of the array
(removed in order, each found at index 0), this equals dropping the consumed
front of the queue. -/
def spendUTXOs (crypto : Crypto) (w : Wallet) (amount : Int) :
    Except WalletErr (List Input × Int × Wallet) :=
  if balance w < amount then .error .InsufficientFunds
  else
    match spendLoop crypto w.addresses amount w.coins with
    | .error e => .error e
    | .ok (ins, rem) =>
      .ok (ins, -rem, { w with coins := w.coins.drop ins.length })

/-! ## Miner (miner.js) -/

def TIME_UNTIL_ELIGIBILITY_DECREASE : Int := 2000

def MINT_ELEGIBILITY_DIFFICULTY : Int := 2

/-- Function `text2Binary(string)`: map each code unit to its JavaScript
`charCodeAt(0).toString(2)` binary representation (no leading-zero padding;
`Nat.toDigits 2` produces exactly that digit string), join, and
`slice(0, 16)`. -/
def text2Binary (s : String) : List Char :=
  ((s.data.map (fun c => Nat.toDigits 2 c.toNat)).flatten).take 16

/-- Errors thrown in the mint-eligibility path. -/
inductive MintErr where
  | StringLengthMismatch
deriving DecidableEq

/-- The counting loop of `countMatchingBits`: walk both strings from the
front, incrementing while the characters agree and returning at the first
mismatch. -/
def countLoop : List Char → List Char → Nat
  | a :: as, b :: bs => if a = b then countLoop as bs + 1 else 0
  | _, _ => 0

/-- Function `countMatchingBits(string1, string2)`: throws on a length mismatch,
otherwise counts the leading positions where the strings agree. -/
def countMatchingBits (s1 s2 : List Char) : Except MintErr Nat :=
  if s1.length ≠ s2.length then .error .StringLengthMismatch
  else .ok (countLoop s1 s2)

/-- A block.  Only the fields the miner claims touch are carried
(`prevBlockHash`, `chainLength`, `timestamp`, `rewardAddress`, `proof`). -/
structure Block where
  prevBlockHash : String
  chainLength : Nat
  timestamp : Int
  rewardAddress : String
  proof : Nat
deriving DecidableEq

/-- Function `isEligibileToMint(miner, b, target)` (source spelling kept):
`eligAddr` stands for `miner.wallet.getEligibilityAddress()`.  Compares the
binarized previous-block hash against the binarized eligibility key and tests
the leading-match count against `target`. -/
def isEligibileToMint (eligAddr : String) (b : Block) (target : Int) :
    Except MintErr Bool :=
  match countMatchingBits (text2Binary b.prevBlockHash) (text2Binary eligAddr) with
  | .error e => .error e
  | .ok n => .ok (decide (target ≤ (n : Int)))

/-- The external pieces of block.js consumed by the miner: the block content
hash (`b.hashVal()` / `utils.hash` of the parent) and the proof predicate
`b.verifyProof()` (the spec leaves the predicate interchangeable). -/
structure MinerEnv where
  hashBlock : Block → String
  verifyProof : Block → Bool

/-- Modelled from the spec: block.js is absent from src/.  Spec §4.3,
`construct(rewardAddress, parent)`: `chainLength = parent.chainLength + 1`,
`prevBlockHash = hash(parent)`, `timestamp = now()`; `startNewSearch` then
starts the proof search at 0. -/
def newBlock (env : MinerEnv) (rewardAddress : String) (parent : Block)
    (now : Int) : Block :=
  { prevBlockHash := env.hashBlock parent
    chainLength := parent.chainLength + 1
    timestamp := now
    rewardAddress := rewardAddress
    proof := 0 }

/-- The miner fields the claims are about.  `eligAddr` is the key captured by
`wallet.saveElibilityProof()`; the wallet itself, the transaction list of the
current block and the logging are not tracked. -/
structure MinerState where
  currentBlock : Block
  previousBlocks : List (String × Block)
  shouldStartNewBlock : Bool
  shouldMine : Bool
  rewardAddress : String
  eligAddr : String
  mintDiffDyn : Int
deriving DecidableEq

/-- Lookup `this.previousBlocks[k]` (property access; a later assignment shadows an
earlier one, so the newest binding comes first). -/
def lookupBlock (m : List (String × Block)) (k : String) : Option Block :=
  (m.find? (fun p => p.1 == k)).map Prod.snd

/-- The `if (this.shouldStartNewBlock)` body of `startNewSearch`: reset the
dynamic target, optionally mint a fresh reward address (`freshAddr` stands for
the `wallet.makeAddress()` result), chain a new block onto `currentBlock`,
remember the old tip under the new block's `prevBlockHash`, and clear the
flag.  The self-paid "coinage" transaction posted at the end only touches the
wallet and the block's transaction list, which are not tracked here. -/
def prepareBlock (env : MinerEnv) (st : MinerState) (reuseRewardAddress : Bool)
    (freshAddr : String) (now : Int) : MinerState :=
  if st.shouldStartNewBlock then
    let st1 := { st with mintDiffDyn := MINT_ELEGIBILITY_DIFFICULTY }
    let st2 := if reuseRewardAddress then st1 else { st1 with rewardAddress := freshAddr }
    let b := newBlock env st2.rewardAddress st2.currentBlock now
    { st2 with
      previousBlocks := (b.prevBlockHash, st2.currentBlock) :: st2.previousBlocks
      currentBlock := b
      shouldStartNewBlock := false }
  else st

/-- Method `Miner.startNewSearch(reuseRewardAddress)`: run the new-block preparation,
then check the miner's own eligibility on the (possibly new) current block; if
eligible set `shouldMine`, otherwise clear it and decrement the dynamic
target (the `setTimeout` retry is a later, separate event; the state returned
is the one at the end of the synchronous call). -/
def startNewSearch (env : MinerEnv) (st : MinerState) (reuseRewardAddress : Bool)
    (freshAddr : String) (now : Int) : Except MintErr MinerState :=
  let st1 := prepareBlock env st reuseRewardAddress freshAddr now
  match isEligibileToMint st1.eligAddr st1.currentBlock st1.mintDiffDyn with
  | .error e => .error e
  | .ok true => .ok { st1 with shouldMine := true }
  | .ok false => .ok { st1 with shouldMine := false, mintDiffDyn := st1.mintDiffDyn - 1 }

/-- Method `Miner.isValidBlock(b, miner)`: when a sender is given, recompute the
allowed target from `Date.now() - b.timestamp + 1000` (the source allows one
second of delivery delay) and check the sender's eligibility; then check
`b.verifyProof()`.  `senderEligAddr` is `miner.wallet.getEligibilityAddress()`
of the sender, `none` standing for `miner = null`. -/
def isValidBlock (env : MinerEnv) (b : Block) (senderEligAddr : Option String)
    (now : Int) : Except MintErr Bool :=
  match senderEligAddr with
  | some elig =>
    let diff : Int := now - b.timestamp + 1000
    let minMintingDifficulty : Int :=
      MINT_ELEGIBILITY_DIFFICULTY - diff.fdiv TIME_UNTIL_ELIGIBILITY_DECREASE
    match isEligibileToMint elig b minMintingDifficulty with
    | .error e => .error e
    | .ok false => .ok false
    | .ok true => .ok (env.verifyProof b)
  | none => .ok (env.verifyProof b)

/-- The "store it in case we need it later" step of `receiveBlock`: record the
block under `b.hashVal()` if no entry exists yet. -/
def storeBlock (env : MinerEnv) (st : MinerState) (b : Block) : MinerState :=
  if (lookupBlock st.previousBlocks (env.hashBlock b)).isNone then
    { st with previousBlocks := (env.hashBlock b, b) :: st.previousBlocks }
  else st

/-- Method `Miner.receiveBlock({block, miner})` after deserialization: reject (state
unchanged) when `isValidBlock` fails; otherwise store the block, and when
`b.chainLength >= this.currentBlock.chainLength && this !== miner`
(`senderIsSelf` models the reference comparison) cut over — set
`currentBlock = b`, `shouldStartNewBlock = true` and call
`startNewSearch(true)`. -/
def receiveBlock (env : MinerEnv) (st : MinerState) (b : Block)
    (senderEligAddr : String) (senderIsSelf : Bool) (freshAddr : String)
    (now : Int) : Except MintErr MinerState :=
  match isValidBlock env b (some senderEligAddr) now with
  | .error e => .error e
  | .ok false => .ok st
  | .ok true =>
    let st1 := storeBlock env st b
    if st1.currentBlock.chainLength ≤ b.chainLength ∧ senderIsSelf = false then
      startNewSearch env { st1 with currentBlock := b, shouldStartNewBlock := true }
        true freshAddr now
    else .ok st1

/-- One `PROOF_FOUND` delivery, as seen by `receiveBlock`. -/
structure BlockEvent where
  block : Block
  senderEligAddr : String
  senderIsSelf : Bool
  freshAddr : String
  now : Int

/-- A sequence of `receiveBlock` deliveries processed in order. -/
def processBlocks (env : MinerEnv) : MinerState → List BlockEvent →
    Except MintErr MinerState
  | st, [] => .ok st
  | st, e :: es =>
    match receiveBlock env st e.block e.senderEligAddr e.senderIsSelf
        e.freshAddr e.now with
    | .error err => .error err
    | .ok st1 => processBlocks env st1 es

/-! ## Specification-side functions

These restate quantities in the spec's vocabulary, independently of the
loops in the source, so that the theorems below compare the two. -/

/-- The total amount carried by a list of coins. -/
def sumAmounts (coins : List Coin) : Int :=
  (coins.map (fun c => c.output.amount)).sum

/-- The signed input the spec prescribes for a consumed coin:
`{txID, outputIndex, pubKey: keypair.public, signature: sign(keypair.private, coin.output)}`. -/
def mkInputOf (crypto : Crypto) (addrs : List (String × Keypair)) (c : Coin) :
    Option Input :=
  (lookupAddr addrs c.output.address).map fun kp =>
    ⟨c.txID, c.outputIndex, kp.pub, crypto.sign kp.priv c.output⟩

/-- The spec's `matchingPrefixBits`: the number of leading positions where the
two strings agree, phrased as the length of the agreeing zipped front. -/
def leadingMatchSpec (s1 s2 : List Char) : Nat :=
  ((s1.zip s2).takeWhile (fun p => p.1 == p.2)).length

/-- The claim's reading of `bin16`: each code unit contributes its 8-bit
(zero-padded) binary representation, concatenated and truncated to 16 bits.
Stated from the claim's words, to be compared with `text2Binary`. -/
def bin16Padded (s : String) : List Char :=
  ((s.data.map (fun c =>
    List.replicate (8 - (Nat.toDigits 2 c.toNat).length) '0'
      ++ Nat.toDigits 2 c.toNat)).flatten).take 16

/-- The sum of a transaction's output amounts, spec-side. -/
def sumOutputs (t : Transaction) : Int :=
  (t.outputs.map (fun o => o.amount)).sum

/-- The amount of the output referenced by an input in a view (0 when the
reference does not resolve; only used under the premise that it does). -/
def refAmount (utxos : UTXOView) (txIn : Input) : Int :=
  match refOutput utxos txIn with
  | some o => o.amount
  | none => 0

/-- An input resolves in the view, the referenced address matches the hash of
the input's public key, and the signature verifies. -/
def inputOk (crypto : Crypto) (utxos : UTXOView) (txIn : Input) : Bool :=
  match refOutput utxos txIn with
  | none => false
  | some o =>
    crypto.calcAddress txIn.pubKey == o.address
      && crypto.verifySignature txIn.pubKey o txIn.sig

/-! ## Concrete instances used by witnesses and counterexamples -/

/-- A concrete, fully computable crypto oracle for evaluating the embedding on
closed inputs.  A keypair is consistent when `priv = "k/" ++ pub`, so that
`verifySignature pub v (sign priv v)` holds exactly for matching keys. -/
def testCrypto : Crypto :=
  { hash := fun s => "H/" ++ s
    calcAddress := fun pk => "A/" ++ pk
    sign := fun priv o => "S/" ++ priv ++ "/" ++ o.address ++ "/" ++ toString o.amount
    verifySignature := fun pub o sig =>
      sig == "S/k/" ++ pub ++ "/" ++ o.address ++ "/" ++ toString o.amount
    stringifyTx := fun ins outs => "T/" ++ toString ins.length ++ "/" ++ toString outs.length }

/-- The test keypair: address `A/pA`. -/
def kpA : Keypair := ⟨"pA", "k/pA"⟩

/-- An empty wallet holding the keypair for address `A/pA`. -/
def w0C1 : Wallet := ⟨[], [("A/pA", kpA)]⟩

/-- Wallet `w0C1` after `addUTXO({amount: 5, address: A/pA}, "t1", 0)`. -/
def w1C1 : Wallet := ⟨[⟨⟨5, "A/pA"⟩, "t1", 0⟩], [("A/pA", kpA)]⟩

/-- Wallet `w1C1` after `addUTXO({amount: 7, address: A/pA}, "t2", 0)`: the later
coin sits at the front of the queue. -/
def w2C1 : Wallet := ⟨[⟨⟨7, "A/pA"⟩, "t2", 0⟩, ⟨⟨5, "A/pA"⟩, "t1", 0⟩], [("A/pA", kpA)]⟩

/-- A 2-character string whose code units are 195 (`11000011`), binarizing to
exactly 16 bits with or without padding. -/
def strA : String := String.mk [Char.ofNat 195, Char.ofNat 195]

/-- A 2-character string whose code units are 160 (`10100000`); it shares
exactly one leading bit with `strA`. -/
def strB : String := String.mk [Char.ofNat 160, Char.ofNat 160]

/-- A block whose parent hash is `strA`. -/
def blkA : Block :=
  { prevBlockHash := strA, chainLength := 5, timestamp := 0
    rewardAddress := "r", proof := 0 }

/-- A block whose parent hash is `"0000"` (hex-digit code units, which
binarize to 6 bits each without padding). -/
def blkZ : Block :=
  { prevBlockHash := "0000", chainLength := 1, timestamp := 0
    rewardAddress := "r", proof := 0 }

/-- A miner environment with a constant block hash and an always-true proof
predicate. -/
def envT : MinerEnv := ⟨fun _ => strA, fun _ => true⟩

/-- A miner environment whose proof predicate always fails. -/
def envF : MinerEnv := ⟨fun _ => strA, fun _ => false⟩

/-- A miner at a genesis-like tip, eligibility key `strA`. -/
def stW : MinerState :=
  { currentBlock := { prevBlockHash := "g", chainLength := 0, timestamp := 0
                      rewardAddress := "r", proof := 0 }
    previousBlocks := []
    shouldStartNewBlock := false
    shouldMine := false
    rewardAddress := "r"
    eligAddr := strA
    mintDiffDyn := 2 }

/-- A coinbase-shaped transaction paying 42 to `A/pA` (the address of `kpA`
under `testCrypto`). -/
def txC3 : Transaction := mkTransaction testCrypto [] [⟨42, "A/pA"⟩]

/-- A correctly signed input spending output 0 of `txC3`. -/
def inpC3 : Input := ⟨txC3.id, 0, "pA", testCrypto.sign "k/pA" ⟨42, "A/pA"⟩⟩

/-- A coinbase-shaped transaction with two outputs, as in the test suite. -/
def tC5 : Transaction := mkTransaction testCrypto [] [⟨1, "A/pA"⟩, ⟨42, "A/pA"⟩]

/-- A UTXO view exposing both outputs of `tC5`. -/
def viewC4 : UTXOView := [(tC5.id, [some ⟨1, "A/pA"⟩, some ⟨42, "A/pA"⟩])]

/-- A correctly signed input spending output 1 of `tC5`. -/
def inC4 : Input := ⟨tC5.id, 1, "pA", testCrypto.sign "k/pA" ⟨42, "A/pA"⟩⟩

/-- A transaction spending `inC4` into outputs summing to 30 (≤ 42). -/
def txC4 : Transaction := mkTransaction testCrypto [inC4] [⟨20, "B"⟩, ⟨10, "A/pA"⟩]

/-! ## Helper lemmas -/

theorem sumAmounts_nil : sumAmounts [] = 0 := rfl

theorem sumAmounts_cons (c : Coin) (l : List Coin) :
    sumAmounts (c :: l) = c.output.amount + sumAmounts l := by
  simp [sumAmounts]

theorem coin_foldl_sum (l : List Coin) (s : Int) :
    l.foldl (fun acc c => acc + c.output.amount) s = s + sumAmounts l := by
  induction l generalizing s with
  | nil => simp [sumAmounts]
  | cons c l ih => simp [ih, sumAmounts_cons]; ring

theorem balance_eq_sumAmounts (w : Wallet) : balance w = sumAmounts w.coins := by
  simp [balance, coin_foldl_sum]

theorem out_foldl_sum (l : List Output) (s : Int) :
    l.foldl (fun acc o => acc + o.amount) s = s + (l.map (fun o => o.amount)).sum := by
  induction l generalizing s with
  | nil => simp
  | cons o l ih => simp [ih]; ring

/-! ## C1: the order in which `spendUTXOs` consumes the queue -/

/-- C1 (a code bug, demonstrated by evaluation): on a wallet whose queue was
built by two `addUTXO` calls — coin `t1` (amount 5) added first, coin `t2`
(amount 7) added second and therefore sitting at the front — `spendUTXOs(5)`
consumes the coin at the FRONT of the queue (`t2`, the most recently added),
leaving the oldest coin `t1` in the wallet.  The claim, the spec and the
source comment in `addUTXO` ("we spend the oldest ... first") all require the
opposite order. -/
theorem claim_C1_bug :
    addUTXO w0C1 ⟨5, "A/pA"⟩ "t1" 0 = .ok w1C1 ∧
    addUTXO w1C1 ⟨7, "A/pA"⟩ "t2" 0 = .ok w2C1 ∧
    spendUTXOs testCrypto w2C1 5 =
      .ok ([⟨"t2", 0, "pA", "S/k/pA/A/pA/7"⟩], 2,
           ⟨[⟨⟨5, "A/pA"⟩, "t1", 0⟩], [("A/pA", kpA)]⟩) := by
  refine ⟨rfl, rfl, ?_⟩
  rfl

/-! ## C3: the error cases of `Transaction.spendOutput` -/

/-- C3: for an input whose `outputIndex` addresses an existing output,
`spendOutput` fails with `WrongTxID` when `input.txID ≠ t.id`; otherwise fails
with `AddressMismatch` when `hash(input.pubKey)` differs from the referenced
output's address; otherwise fails with `BadSignature` when the signature does
not verify against the referenced output; otherwise it returns the referenced
output's amount.  The embedding is a pure function of `t`, so the transaction
itself is unchanged. -/
theorem claim_C3 (crypto : Crypto) (t : Transaction) (inp : Input)
    (h : inp.outputIndex < t.outputs.length) :
    (inp.txID ≠ t.id → spendOutput crypto t inp = .error .WrongTxID) ∧
    (inp.txID = t.id →
      crypto.calcAddress inp.pubKey ≠ t.outputs[inp.outputIndex].address →
      spendOutput crypto t inp = .error .AddressMismatch) ∧
    (inp.txID = t.id →
      crypto.calcAddress inp.pubKey = t.outputs[inp.outputIndex].address →
      crypto.verifySignature inp.pubKey t.outputs[inp.outputIndex] inp.sig = false →
      spendOutput crypto t inp = .error .BadSignature) ∧
    (inp.txID = t.id →
      crypto.calcAddress inp.pubKey = t.outputs[inp.outputIndex].address →
      crypto.verifySignature inp.pubKey t.outputs[inp.outputIndex] inp.sig = true →
      spendOutput crypto t inp = .ok t.outputs[inp.outputIndex].amount) := by
  have hget : t.outputs[inp.outputIndex]? = some t.outputs[inp.outputIndex] := by
    simp [List.getElem?_eq_getElem h]
  refine ⟨?_, ?_, ?_, ?_⟩
  · intro hne
    simp [spendOutput, hne]
  · intro heq hne
    simp [spendOutput, heq, hget, hne]
  · intro heq haddr hsig
    simp [spendOutput, heq, hget, haddr, hsig]
  · intro heq haddr hsig
    simp [spendOutput, heq, hget, haddr, hsig]

/-- Witness for C3: all checks pass on the concretely signed input `inpC3`,
and the output amount 42 is returned. -/
theorem claim_C3_witness : spendOutput testCrypto txC3 inpC3 = .ok 42 := by
  have h : inpC3.outputIndex < txC3.outputs.length := by decide
  exact (claim_C3 testCrypto txC3 inpC3 h).2.2.2 rfl rfl rfl

/-! ## C5: id frozen at construction; `addFee` only bumps `outputs[0].amount` -/

/-- C5: a transaction's `id` is the content hash of its construction-time
inputs and outputs, and `addFee(k)` (on any transaction with a nonempty
output list, the coinbase shape) only adds `k` to `outputs[0].amount`:
the `id`, the `inputs`, `outputs[0].address` and all other outputs are
unchanged — in particular the `id` still hashes the construction-time
outputs, not the mutated ones. -/
theorem claim_C5 :
    (∀ (crypto : Crypto) (ins : List Input) (outs : List Output),
      (mkTransaction crypto ins outs).id = crypto.hash (crypto.stringifyTx ins outs)) ∧
    (∀ (t : Transaction) (k : Int) (o : Output) (rest : List Output),
      t.outputs = o :: rest →
      addFee t k =
        some { inputs := t.inputs
               outputs := { o with amount := o.amount + k } :: rest
               id := t.id }) := by
  refine ⟨fun _ _ _ => rfl, fun t k o rest hout => ?_⟩
  simp [addFee, hout]

/-- Witness for C5: after `addFee 3` on the concrete coinbase `tC5`, only the
first output's amount grew by 3, and the id is still the hash of the
construction-time content. -/
theorem claim_C5_witness :
    addFee tC5 3 =
      some { inputs := []
             outputs := [⟨4, "A/pA"⟩, ⟨42, "A/pA"⟩]
             id := testCrypto.hash (testCrypto.stringifyTx [] [⟨1, "A/pA"⟩, ⟨42, "A/pA"⟩]) } :=
  claim_C5.2 tC5 3 ⟨1, "A/pA"⟩ [⟨42, "A/pA"⟩] rfl

/-! ## C9: `addUTXO` performs no duplicate detection -/

/-- C9: on a wallet holding the keypair for `out.address`, two `addUTXO` calls
with the identical `(output, txID, outputIndex)` triple both succeed, add two
separate entries to the queue, and the balance counts the referenced amount
twice. -/
theorem claim_C9 (w : Wallet) (out : Output) (txID : String) (idx : Nat)
    (h : (lookupAddr w.addresses out.address).isSome) :
    addUTXO w out txID idx = .ok { w with coins := ⟨out, txID, idx⟩ :: w.coins } ∧
    addUTXO { w with coins := ⟨out, txID, idx⟩ :: w.coins } out txID idx =
      .ok { w with coins := ⟨out, txID, idx⟩ :: ⟨out, txID, idx⟩ :: w.coins } ∧
    ({ w with coins := ⟨out, txID, idx⟩ :: ⟨out, txID, idx⟩ :: w.coins } : Wallet).coins.length
      = w.coins.length + 2 ∧
    balance { w with coins := ⟨out, txID, idx⟩ :: ⟨out, txID, idx⟩ :: w.coins } =
      balance w + 2 * out.amount := by
  obtain ⟨kp, hkp⟩ := Option.isSome_iff_exists.mp h
  refine ⟨?_, ?_, ?_, ?_⟩
  · simp [addUTXO, hkp]
  · simp [addUTXO, hkp]
  · simp
  · simp [balance_eq_sumAmounts, sumAmounts_cons]
    ring

/-- Witness for C9: twice the same 42-coin in `w0C1` doubles the balance. -/
theorem claim_C9_witness :
    balance ⟨[⟨⟨42, "A/pA"⟩, "t9", 0⟩, ⟨⟨42, "A/pA"⟩, "t9", 0⟩], [("A/pA", kpA)]⟩
      = balance w0C1 + 2 * 42 :=
  (claim_C9 w0C1 ⟨42, "A/pA"⟩ "t9" 0 (by decide)).2.2.2

/-! ## C10: `isValid` on the coinbase (empty-input) shape -/

/-- C10: a transaction with no inputs never makes `isValid` throw (the
embedding is total), and with non-negative output amounts `isValid` returns
`true` exactly when the output amounts sum to 0; in particular a coinbase
with a positive reward is reported invalid rather than erroring. -/
theorem claim_C10 (crypto : Crypto) (t : Transaction) (utxos : UTXOView)
    (hin : t.inputs = []) (hnn : ∀ o ∈ t.outputs, 0 ≤ o.amount) :
    (isValid crypto t utxos = true ↔ sumOutputs t = 0) ∧
    (0 < sumOutputs t → isValid crypto t utxos = false) := by
  have hout : t.outputs.foldl (fun acc o => acc + o.amount) 0 = sumOutputs t := by
    simp [out_foldl_sum, sumOutputs]
  have hval : isValid crypto t utxos = decide (sumOutputs t ≤ 0) := by
    simp [isValid, hin, hout]
  have hsum : 0 ≤ sumOutputs t := by
    simp only [sumOutputs]
    apply List.sum_nonneg
    intro x hx
    rw [List.mem_map] at hx
    obtain ⟨o, ho, rfl⟩ := hx
    exact hnn o ho
  constructor
  · rw [hval]
    simp only [decide_eq_true_eq]
    omega
  · intro hpos
    rw [hval]
    simp only [decide_eq_false_iff_not]
    omega

/-- Witness for C10: the concrete coinbase `txC3` (one 42-coin output, no
inputs) is reported invalid, without an error, on the empty view. -/
theorem claim_C10_witness : isValid testCrypto txC3 [] = false :=
  (claim_C10 testCrypto txC3 [] rfl (by decide)).2 (by decide)

/-! ## C2: the success and failure contract of `spendUTXOs` -/

theorem filterMap_length_of_isSome {α β : Type} (f : α → Option β) :
    ∀ (l : List α), (∀ x ∈ l, (f x).isSome) → (l.filterMap f).length = l.length := by
  intro l
  induction l with
  | nil => simp
  | cons x l ih =>
    intro h
    have hx : (f x).isSome := h x (by simp)
    obtain ⟨y, hy⟩ := Option.isSome_iff_exists.mp hx
    simp [List.filterMap_cons, hy, ih (fun z hz => h z (List.mem_cons_of_mem _ hz))]

theorem spendLoop_spec (crypto : Crypto) (addrs : List (String × Keypair)) :
    ∀ (coins : List Coin) (amount : Int),
      (∀ c ∈ coins, (lookupAddr addrs c.output.address).isSome) →
      ∃ k, k ≤ coins.length ∧
        spendLoop crypto addrs amount coins =
          .ok ((coins.take k).filterMap (mkInputOf crypto addrs),
               amount - sumAmounts (coins.take k)) ∧
        (∀ j, j < k → sumAmounts (coins.take j) < amount) ∧
        (k = coins.length ∨ amount ≤ sumAmounts (coins.take k)) := by
  intro coins
  induction coins with
  | nil =>
    intro amount h
    refine ⟨0, le_refl 0, ?_, ?_, Or.inl rfl⟩
    · simp [spendLoop, sumAmounts]
    · intro j hj
      omega
  | cons c rest ih =>
    intro amount h
    by_cases hpos : 0 < amount
    · have hc : (lookupAddr addrs c.output.address).isSome := h c (by simp)
      obtain ⟨kp, hkp⟩ := Option.isSome_iff_exists.mp hc
      obtain ⟨k, hk, hloop, hstop, hend⟩ :=
        ih (amount - c.output.amount) (fun x hx => h x (List.mem_cons_of_mem _ hx))
      refine ⟨k + 1, by simpa using Nat.succ_le_succ hk, ?_, ?_, ?_⟩
      · show spendLoop crypto addrs amount (c :: rest) = _
        simp only [spendLoop, if_pos hpos, hkp, hloop]
        have hmk : mkInputOf crypto addrs c =
            some ⟨c.txID, c.outputIndex, kp.pub, crypto.sign kp.priv c.output⟩ := by
          simp [mkInputOf, hkp]
        simp only [List.take_succ_cons, List.filterMap_cons, hmk, sumAmounts_cons]
        congr 2
        omega
      · intro j hj
        cases j with
        | zero =>
          simpa [sumAmounts] using hpos
        | succ j =>
          have := hstop j (by omega)
          simp only [List.take_succ_cons, sumAmounts_cons]
          omega
      · rcases hend with hlen | hle
        · left
          simp [hlen]
        · right
          simp only [List.take_succ_cons, sumAmounts_cons]
          omega
    · refine ⟨0, by omega, ?_, ?_, Or.inr ?_⟩
      · simp [spendLoop, hpos, sumAmounts]
      · intro j hj
        omega
      · simp [sumAmounts]
        omega

/-- C2: if the requested amount exceeds the balance, `spendUTXOs` fails with
`InsufficientFunds` (the embedding being pure, the queue is untouched);
otherwise it succeeds, consuming the shortest front segment of the queue whose
accumulated amount reaches the request — every proper sub-segment stays below
the request — returning exactly those coins as signed inputs, removing exactly
them from the queue while keeping the keypair map, and returning the change
`accumulated − requested ≥ 0`.  (The wallet is assumed well-formed: a keypair
exists for every queued coin, which `addUTXO` guarantees and which the
success path of the source dereferences.) -/
theorem claim_C2 (crypto : Crypto) (w : Wallet) (amount : Int)
    (hwf : ∀ c ∈ w.coins, (lookupAddr w.addresses c.output.address).isSome) :
    (balance w < amount → spendUTXOs crypto w amount = .error .InsufficientFunds) ∧
    (amount ≤ balance w → ∃ k, k ≤ w.coins.length ∧
      spendUTXOs crypto w amount =
        .ok ((w.coins.take k).filterMap (mkInputOf crypto w.addresses),
             sumAmounts (w.coins.take k) - amount,
             { coins := w.coins.drop k, addresses := w.addresses }) ∧
      amount ≤ sumAmounts (w.coins.take k) ∧
      (∀ j, j < k → sumAmounts (w.coins.take j) < amount) ∧
      0 ≤ sumAmounts (w.coins.take k) - amount) := by
  constructor
  · intro hlt
    simp [spendUTXOs, hlt]
  · intro hle
    obtain ⟨k, hk, hloop, hstop, hend⟩ := spendLoop_spec crypto w.addresses w.coins amount hwf
    have hreach : amount ≤ sumAmounts (w.coins.take k) := by
      rcases hend with hlen | hle2
      · rw [hlen, List.take_length]
        rw [balance_eq_sumAmounts] at hle
        exact hle
      · exact hle2
    have hwftake : ∀ c ∈ w.coins.take k, (mkInputOf crypto w.addresses c).isSome := by
      intro c hc
      have : c ∈ w.coins := List.take_subset k w.coins hc
      have hs := hwf c this
      obtain ⟨kp, hkp⟩ := Option.isSome_iff_exists.mp hs
      simp [mkInputOf, hkp]
    have hlen2 : ((w.coins.take k).filterMap (mkInputOf crypto w.addresses)).length = k := by
      rw [filterMap_length_of_isSome _ _ hwftake]
      exact List.length_take_of_le hk
    refine ⟨k, hk, ?_, hreach, hstop, by omega⟩
    simp only [spendUTXOs, not_lt.mpr hle, if_neg (not_lt.mpr hle), hloop]
    rw [hlen2, neg_sub]
    simp

/-- Witness for C2: requesting 20 from the wallet `w2C1`, whose balance is 12,
fails with `InsufficientFunds`. -/
theorem claim_C2_witness :
    spendUTXOs testCrypto w2C1 20 = .error .InsufficientFunds :=
  (claim_C2 testCrypto w2C1 20 (by decide)).1 (by decide)

/-! ## C4: `isValid` never throws, and its verdict -/

theorem validFold (crypto : Crypto) (utxos : UTXOView) :
    ∀ (l : List Input) (s : Int) (v : Bool),
      l.foldl
        (fun (acc : Int × Bool) txIn =>
          match refOutput utxos txIn with
          | none => (acc.1, false)
          | some prevOut =>
            if crypto.calcAddress txIn.pubKey == prevOut.address
                && crypto.verifySignature txIn.pubKey prevOut txIn.sig then
              (acc.1 + prevOut.amount, acc.2)
            else (acc.1, false))
        (s, v) =
      (s + (l.map (fun txIn =>
              if inputOk crypto utxos txIn then refAmount utxos txIn else 0)).sum,
       v && l.all (inputOk crypto utxos)) := by
  intro l
  induction l with
  | nil =>
    intro s v
    simp
  | cons x l ih =>
    intro s v
    simp only [List.foldl_cons, List.map_cons, List.sum_cons, List.all_cons]
    cases hro : refOutput utxos x with
    | none =>
      have hok : inputOk crypto utxos x = false := by
        simp [inputOk, hro]
      simp only [hro]
      rw [ih]
      simp [hok]
    | some prevOut =>
      by_cases hcv : (crypto.calcAddress x.pubKey == prevOut.address
          && crypto.verifySignature x.pubKey prevOut x.sig) = true
      · have hok : inputOk crypto utxos x = true := by
          simp only [inputOk, hro]
          exact hcv
        have hamt : refAmount utxos x = prevOut.amount := by
          simp [refAmount, hro]
        simp only [hro, if_pos hcv]
        rw [ih]
        simp [hok, hamt, add_assoc]
      · have hok : inputOk crypto utxos x = false := by
          simp only [inputOk, hro]
          simpa using hcv
        simp only [hro, if_neg hcv]
        rw [ih]
        simp [hok]

/-- C4: `isValid` is a total Boolean function of the transaction and the view
(it never throws); it returns `false` whenever some input fails to resolve in
the view (missing transaction or missing/cleared output slot), has an address
differing from the hash of its public key, or carries a signature that does
not verify; and when every input passes all three checks it returns `true`
exactly when the sum of the referenced output amounts is at least the sum of
the transaction's output amounts. -/
theorem claim_C4 (crypto : Crypto) (t : Transaction) (utxos : UTXOView) :
    ((∃ txIn ∈ t.inputs, inputOk crypto utxos txIn = false) →
      isValid crypto t utxos = false) ∧
    ((∀ txIn ∈ t.inputs, inputOk crypto utxos txIn = true) →
      (isValid crypto t utxos = true ↔
        sumOutputs t ≤ (t.inputs.map (refAmount utxos)).sum)) := by
  have hfold := validFold crypto utxos t.inputs 0 true
  constructor
  · rintro ⟨txIn, hmem, hbad⟩
    have hall : t.inputs.all (inputOk crypto utxos) = false := by
      rw [List.all_eq_false]
      exact ⟨txIn, hmem, by simp [hbad]⟩
    simp only [isValid]
    rw [hfold]
    simp [hall]
  · intro hall
    have hallb : t.inputs.all (inputOk crypto utxos) = true := by
      rw [List.all_eq_true]
      intro x hx
      simp [hall x hx]
    have hmap : t.inputs.map (fun txIn =>
        if inputOk crypto utxos txIn then refAmount utxos txIn else 0) =
        t.inputs.map (refAmount utxos) := by
      apply List.map_congr_left
      intro x hx
      simp [hall x hx]
    simp only [isValid]
    rw [hfold, hmap]
    simp [hallb, out_foldl_sum, sumOutputs]

/-- Witness for C4: the concrete spend `txC4` (referenced input amount 42,
outputs summing to 30) is accepted against the view `viewC4`. -/
theorem claim_C4_witness : isValid testCrypto txC4 viewC4 = true :=
  ((claim_C4 testCrypto txC4 viewC4).2 (by decide)).mpr (by decide)

/-! ## C7: the mint-eligibility predicate -/

theorem countLoop_eq_leadingMatchSpec :
    ∀ (s1 s2 : List Char), countLoop s1 s2 = leadingMatchSpec s1 s2 := by
  intro s1
  induction s1 with
  | nil =>
    intro s2
    simp [countLoop, leadingMatchSpec]
  | cons a as ih =>
    intro s2
    cases s2 with
    | nil => simp [countLoop, leadingMatchSpec]
    | cons b bs =>
      by_cases hab : a = b
      · simp only [countLoop, leadingMatchSpec, List.zip_cons_cons, List.takeWhile_cons,
          if_pos hab]
        simp [hab, ih bs, leadingMatchSpec]
      · simp only [countLoop, leadingMatchSpec, List.zip_cons_cons, List.takeWhile_cons,
          if_neg hab]
        simp [hab]

/-- C7, counterexample: the claim reads `bin16` as the concatenation of 8-bit
(zero-padded) binary representations of the code units, but `text2Binary`
concatenates the unpadded JavaScript `toString(2)` digits.  On
`prevBlockHash = "0000"` (code unit 48, six binary digits each) and the
eligibility key `strA` (code unit 195, eight digits), the source counts 8
matching leading bits and reports eligibility at target 2, while the claim's
8-bit-padded reading matches 0 leading bits and would deny it. -/
theorem claim_C7_cex :
    isEligibileToMint strA blkZ 2 = .ok true ∧
    ¬ ((2 : Int) ≤ (leadingMatchSpec (bin16Padded blkZ.prevBlockHash) (bin16Padded strA) : Int)) := by
  constructor
  · rfl
  · decide

/-- C7, amended: `isEligibileToMint(key, b, target)` holds exactly when the
number of leading equal bits of `text2Binary(b.prevBlockHash)` and
`text2Binary(key)` is at least `target`, where `text2Binary` concatenates the
UNPADDED binary representations of the code units (JavaScript `toString(2)`,
so without leading zeros) truncated to the first 16 bits; it throws
`StringLengthMismatch` exactly when the two binarized strings differ in
length. -/
theorem claim_C7 (pk : String) (b : Block) (target : Int) :
    ((text2Binary b.prevBlockHash).length = (text2Binary pk).length →
      isEligibileToMint pk b target =
        .ok (decide (target ≤
          (leadingMatchSpec (text2Binary b.prevBlockHash) (text2Binary pk) : Int)))) ∧
    ((text2Binary b.prevBlockHash).length ≠ (text2Binary pk).length →
      isEligibileToMint pk b target = .error .StringLengthMismatch) := by
  constructor
  · intro h
    simp [isEligibileToMint, countMatchingBits, h, countLoop_eq_leadingMatchSpec]
  · intro h
    simp [isEligibileToMint, countMatchingBits, h]

/-- Witness for C7: on the concrete block `blkA`, whose parent hash equals the
eligibility key `strA`, the predicate evaluates per the amended reading. -/
theorem claim_C7_witness :
    isEligibileToMint strA blkA 2 =
      .ok (decide ((2 : Int) ≤
        (leadingMatchSpec (text2Binary blkA.prevBlockHash) (text2Binary strA) : Int))) :=
  (claim_C7 strA blkA 2).1 rfl

/-! ## C8: the receiver-side eligibility re-check -/

/-- C8, counterexample: the claim derives the allowed target from the elapsed
time `currentTime - b.timestamp`, but the source adds a 1000 ms delivery
allowance before dividing.  At elapsed time 1000 ms and one matching leading
bit (`blkA` against key `strB`), the source's `isValidBlock` accepts the
block (its target is `2 - floor(2000/2000) = 1`), while the claim's target is
`2 - floor(1000/2000) = 2` and the eligibility check at that target fails. -/
theorem claim_C8_cex :
    isValidBlock envT blkA (some strB) 1000 = .ok true ∧
    isEligibileToMint strB blkA
      (MINT_ELEGIBILITY_DIFFICULTY -
        (1000 - blkA.timestamp).fdiv TIME_UNTIL_ELIGIBILITY_DECREASE) = .ok false := by
  constructor
  · rfl
  · rfl

/-- C8, amended: for a block arriving from a non-null sender, `isValidBlock`
returns `ok true` exactly when (a) the binarized parent hash and sender
eligibility key have equal length (otherwise the check throws), (b) the
number of their leading equal bits reaches the target the receiver derives
from `currentTime - b.timestamp + 1000` — the base target minus one per full
`TIME_UNTIL_ELIGIBILITY_DECREASE` interval of that allowance-padded elapsed
time — and (c) `b.verifyProof()` holds; and whenever `isValidBlock` returns
`ok false`, `receiveBlock` rejects the block leaving the miner state
unchanged. -/
theorem claim_C8 (env : MinerEnv) (st : MinerState) (b : Block) (elig : String)
    (selfp : Bool) (fresh : String) (now : Int) :
    (isValidBlock env b (some elig) now = .ok true ↔
      ((text2Binary b.prevBlockHash).length = (text2Binary elig).length ∧
       MINT_ELEGIBILITY_DIFFICULTY -
         (now - b.timestamp + 1000).fdiv TIME_UNTIL_ELIGIBILITY_DECREASE ≤
         (leadingMatchSpec (text2Binary b.prevBlockHash) (text2Binary elig) : Int) ∧
       env.verifyProof b = true)) ∧
    (isValidBlock env b (some elig) now = .ok false →
      receiveBlock env st b elig selfp fresh now = .ok st) := by
  constructor
  · by_cases hlen : (text2Binary b.prevBlockHash).length = (text2Binary elig).length
    · by_cases hP : (MINT_ELEGIBILITY_DIFFICULTY -
          (now - b.timestamp + 1000).fdiv TIME_UNTIL_ELIGIBILITY_DECREASE ≤
          (leadingMatchSpec (text2Binary b.prevBlockHash) (text2Binary elig) : Int))
      · simp [isValidBlock, isEligibileToMint, countMatchingBits, hlen,
          countLoop_eq_leadingMatchSpec, hP]
      · simp [isValidBlock, isEligibileToMint, countMatchingBits, hlen,
          countLoop_eq_leadingMatchSpec, hP]
    · simp [isValidBlock, isEligibileToMint, countMatchingBits, hlen]
  · intro h
    simp [receiveBlock, h]

/-- Witness for C8: with a failing proof predicate the block `blkA` is
rejected and the concrete miner state `stW` is returned unchanged. -/
theorem claim_C8_witness :
    receiveBlock envF stW blkA strA false "f" 0 = .ok stW :=
  (claim_C8 envF stW blkA strA false "f" 0).2 (by rfl)

/-! ## C6: fork cut-over and chain-length monotonicity -/

theorem storeBlock_currentBlock (env : MinerEnv) (st : MinerState) (b : Block) :
    (storeBlock env st b).currentBlock = st.currentBlock := by
  unfold storeBlock
  split <;> rfl

theorem prepareBlock_chainLength (env : MinerEnv) (st : MinerState)
    (reuse : Bool) (fresh : String) (now : Int) :
    st.currentBlock.chainLength ≤
      (prepareBlock env st reuse fresh now).currentBlock.chainLength := by
  by_cases h : st.shouldStartNewBlock <;> by_cases hr : reuse <;>
    simp [prepareBlock, h, hr, newBlock]

theorem startNewSearch_mono (env : MinerEnv) (st : MinerState) (reuse : Bool)
    (fresh : String) (now : Int) (st2 : MinerState)
    (h : startNewSearch env st reuse fresh now = .ok st2) :
    st.currentBlock.chainLength ≤ st2.currentBlock.chainLength := by
  have hpre := prepareBlock_chainLength env st reuse fresh now
  simp only [startNewSearch] at h
  split at h
  · cases h
  · simp only [Except.ok.injEq] at h
    rw [← h]
    exact hpre
  · simp only [Except.ok.injEq] at h
    rw [← h]
    exact hpre

theorem receiveBlock_mono (env : MinerEnv) (st : MinerState) (b : Block)
    (elig : String) (selfp : Bool) (fresh : String) (now : Int) (st2 : MinerState)
    (h : receiveBlock env st b elig selfp fresh now = .ok st2) :
    st.currentBlock.chainLength ≤ st2.currentBlock.chainLength := by
  unfold receiveBlock at h
  cases hv : isValidBlock env b (some elig) now with
  | error e =>
    rw [hv] at h
    cases h
  | ok valid =>
    rw [hv] at h
    cases valid with
    | false =>
      simp only [Except.ok.injEq] at h
      rw [← h]
    | true =>
      simp only at h
      by_cases hc : (storeBlock env st b).currentBlock.chainLength ≤ b.chainLength ∧
          selfp = false
      · rw [if_pos hc] at h
        have h2 := startNewSearch_mono env
          { storeBlock env st b with currentBlock := b, shouldStartNewBlock := true }
          true fresh now st2 h
        have hcb := storeBlock_currentBlock env st b
        have hb : st.currentBlock.chainLength ≤ b.chainLength := by
          rw [← hcb]
          exact hc.1
        exact le_trans hb h2
      · rw [if_neg hc] at h
        simp only [Except.ok.injEq] at h
        rw [← h, storeBlock_currentBlock]

theorem processBlocks_mono (env : MinerEnv) :
    ∀ (evs : List BlockEvent) (st st2 : MinerState),
      processBlocks env st evs = .ok st2 →
      st.currentBlock.chainLength ≤ st2.currentBlock.chainLength := by
  intro evs
  induction evs with
  | nil =>
    intro st st2 h
    simp only [processBlocks, Except.ok.injEq] at h
    rw [← h]
  | cons e es ih =>
    intro st st2 h
    simp only [processBlocks] at h
    cases hr : receiveBlock env st e.block e.senderEligAddr e.senderIsSelf
        e.freshAddr e.now with
    | error err =>
      rw [hr] at h
      cases h
    | ok st1 =>
      rw [hr] at h
      exact le_trans (receiveBlock_mono env st e.block e.senderEligAddr
        e.senderIsSelf e.freshAddr e.now st1 hr) (ih st1 st2 h)

/-- C6: for a block `b` that passes validation, `receiveBlock` cuts over —
sets `currentBlock = b`, flags a new block and re-enters the search on top of
`b` — exactly when `b.chainLength ≥ currentBlock.chainLength` and the sender
is not the miner itself; when the condition fails the current block is left
unchanged (only the block store may grow).  Consequently `currentBlock
.chainLength` never decreases: across any single accepted delivery, and
across every sequence of deliveries processed by `receiveBlock`. -/
theorem claim_C6 (env : MinerEnv) (st : MinerState) (b : Block) (elig : String)
    (selfp : Bool) (fresh : String) (now : Int)
    (hvalid : isValidBlock env b (some elig) now = .ok true) :
    ((st.currentBlock.chainLength ≤ b.chainLength ∧ selfp = false) →
      receiveBlock env st b elig selfp fresh now =
        startNewSearch env
          { storeBlock env st b with currentBlock := b, shouldStartNewBlock := true }
          true fresh now) ∧
    (¬ (st.currentBlock.chainLength ≤ b.chainLength ∧ selfp = false) →
      receiveBlock env st b elig selfp fresh now = .ok (storeBlock env st b) ∧
      (storeBlock env st b).currentBlock = st.currentBlock) ∧
    (∀ st2, receiveBlock env st b elig selfp fresh now = .ok st2 →
      st.currentBlock.chainLength ≤ st2.currentBlock.chainLength) ∧
    (∀ (evs : List BlockEvent) (st2 : MinerState),
      processBlocks env st evs = .ok st2 →
      st.currentBlock.chainLength ≤ st2.currentBlock.chainLength) := by
  have hcb := storeBlock_currentBlock env st b
  refine ⟨?_, ?_, ?_, ?_⟩
  · intro hc
    simp only [receiveBlock, hvalid]
    rw [if_pos (by rw [hcb]; exact hc)]
  · intro hc
    refine ⟨?_, hcb⟩
    simp only [receiveBlock, hvalid]
    rw [if_neg (by rw [hcb]; exact hc)]
  · intro st2 h
    exact receiveBlock_mono env st b elig selfp fresh now st2 h
  · intro evs st2 h
    exact processBlocks_mono env evs st st2 h

/-- Witness for C6: the concrete miner `stW` (tip at chain length 0) receives
the valid block `blkA` (chain length 5) from another miner and cuts over,
restarting the search on top of `blkA`. -/
theorem claim_C6_witness :
    receiveBlock envT stW blkA strA false "f" 0 =
      startNewSearch envT
        { storeBlock envT stW blkA with currentBlock := blkA, shouldStartNewBlock := true }
        true "f" 0 :=
  (claim_C6 envT stW blkA strA false "f" 0 (by rfl)).1 ⟨by decide, rfl⟩

end BCL
